import Mathlib

/-!
Verification of the `ollama-cli-ask` command-line client (files `ask.py` and
`ask_simple.py`).

The development shallowly embeds the parts of the program that the claims
are about:

* the incremental streaming parser of `ChatSession.chat`, which splits the
  streamed message contents into `<think>…</think>` reasoning text and the
  final answer (`processContent`, `processChunks`, `runStream`);
* the chat result/error handling of `ChatSession.chat` (`chatResult`);
* session persistence: `save_session` (name sanitisation, retention pruning)
  and `load_session` (exact lookup, glob fallback) over an explicit model of
  the history directory;
* `list_models` of both `ask.py` and `ask_simple.py`;
* the mode selection of `main` (interactive vs. one-shot).

Strings are modelled as `List Char`; Python `str.split(sep)` and the `in`
substring test are modelled by `firstSplit` / `pyParts` below, which compute
exactly the `parts[0]` / `parts[1]` components that the source uses.
-/

/-- `isPre p s` decides whether `p` is a (list) prefix of `s`. -/
def isPre : List Char → List Char → Bool
  | [], _ => true
  | _ :: _, [] => false
  | a :: as, b :: bs => a == b && isPre as bs

/-- First-occurrence splitter: `firstSplit sep s = some (pre, rest)` when the
nonempty separator `sep` occurs in `s`, where `pre` is the text before the
first occurrence and `rest` the text after it; `none` when `sep` does not
occur.  This models the occurrence structure of Python's `sep in s` test and
`s.split(sep)`. -/
def firstSplit (sep : List Char) : List Char → Option (List Char × List Char)
  | [] => none
  | c :: cs =>
    if isPre sep (c :: cs) then some ([], (c :: cs).drop sep.length)
    else
      match firstSplit sep cs with
      | none => none
      | some (p, r) => some (c :: p, r)

/-- `pyParts sep s` returns `some (parts[0], parts[1])` of Python's
`s.split(sep)` when `sep` occurs in `s` (so that `len(parts) ≥ 2`), and
`none` otherwise.  `parts[1]` is the text between the first and second
occurrence of `sep`, or everything after the first occurrence when there is
no second one. -/
def pyParts (sep s : List Char) : Option (List Char × List Char) :=
  match firstSplit sep s with
  | none => none
  | some (p0, rest) =>
    match firstSplit sep rest with
    | none => some (p0, rest)
    | some (p1, _) => some (p0, p1)

/-- Executable substring test (specification-side notion): `pat` occurs
contiguously inside `s`. -/
def containsSub (pat s : List Char) : Bool :=
  (List.range (s.length + 1)).any fun i => isPre pat (s.drop i)

/-- The literal start tag `"<think>"` recognised by `ChatSession.chat`. -/
def thinkOpen : List Char := "<think>".toList

/-- The literal end tag `"</think>"` recognised by `ChatSession.chat`. -/
def thinkClose : List Char := "</think>".toList

/-- The mutable state of the streaming loop of `ChatSession.chat`:
`full_response`, `thinking_content` and `in_thinking`. -/
structure ParseState where
  full : List Char
  think : List Char
  inThink : Bool
deriving DecidableEq

/-- The initial state of the streaming loop (`full_response = ""`,
`thinking_content = ""`, `in_thinking = False`). -/
def initParse : ParseState := ⟨[], [], false⟩

/-- One iteration of the streaming loop of `ChatSession.chat` on the
`content` string of a decoded chunk.  Mirrors `ask.py` lines 128–169:
first the `"<think>"` check (`parts[0]` printed and appended to
`full_response`, `in_thinking` set, the remainder `parts[1]` reprocessed),
then the `"</think>"` check (`parts[0]` appended to `thinking_content`,
`in_thinking` cleared, remainder reprocessed), finally the remaining content
goes to `thinking_content` or `full_response` according to `in_thinking`. -/
def processContent (st : ParseState) (content : List Char) : ParseState :=
  let s1 : ParseState × List Char :=
    match pyParts thinkOpen content with
    | some (pre, post) => ({ st with full := st.full ++ pre, inThink := true }, post)
    | none => (st, content)
  let s2 : ParseState × List Char :=
    match pyParts thinkClose s1.2 with
    | some (tp, rp) => ({ s1.1 with think := s1.1.think ++ tp, inThink := false }, rp)
    | none => (s1.1, s1.2)
  if s2.1.inThink then { s2.1 with think := s2.1.think ++ s2.2 }
  else { s2.1 with full := s2.1.full ++ s2.2 }

/-- The streaming loop of `ChatSession.chat` applied to the sequence of
message-content chunks of a streamed response, starting from the initial
state. -/
def processChunks (chunks : List (List Char)) : ParseState :=
  chunks.foldl processContent initParse


/-!
### Stream lines

A streamed response is a sequence of newline-delimited lines.  Each line is
either not valid JSON (`invalid`, skipped by the `except
json.JSONDecodeError: continue` branch) or a decoded object carrying an
optional `"message"` content and the `"done"` flag (absent `"done"`
defaults to `False`, absent `"message"."content"` defaults to `""` and an
object without `"message"` contributes nothing). -/
inductive StreamLine where
  | invalid : StreamLine
  | valid : Option (List Char) → Bool → StreamLine
deriving DecidableEq

/-- Content processing of a single line (`ask.py` lines 122–169): invalid
JSON is skipped, a `"message"` field has its content run through
`processContent`. -/
def lineState (st : ParseState) : StreamLine → ParseState
  | .invalid => st
  | .valid none _ => st
  | .valid (some c) _ => processContent st c

/-- The `"done"` flag of a line; an invalid line never reaches the `done`
check (the `continue` happens before it). -/
def lineDone : StreamLine → Bool
  | .invalid => false
  | .valid _ d => d

/-- The full streaming loop of `ChatSession.chat`: process lines in order
and `break` directly after the first line whose `"done"` field is true. -/
def runStream (st : ParseState) : List StreamLine → ParseState
  | [] => st
  | l :: ls =>
    let st' := lineState st l
    if lineDone l then st' else runStream st' ls

/-- The prefix of a line sequence the loop actually consumes: everything up
to and including the first line with `"done": true`. -/
def takeToDone : List StreamLine → List StreamLine
  | [] => []
  | l :: ls => if lineDone l then [l] else l :: takeToDone ls

/-!
### The chat call (`ChatSession.chat`)

`ChatSession.chat` either succeeds (streaming or non-streaming) or fails
with `urllib.error.URLError`, `TimeoutError` or `KeyboardInterrupt`.  Its
interaction with the session is: on success it appends exactly one
assistant message holding the full response and returns it; on each error
path it returns `None` without touching `self.messages`. -/
structure Message where
  role : List Char
  content : List Char
deriving DecidableEq

/-- A `ChatSession`: the fields the claims are about. -/
structure ChatSession where
  model : List Char
  messages : List Message
deriving DecidableEq

/-- The possible outcomes of the HTTP interaction inside
`ChatSession.chat`. -/
inductive ChatOutcome where
  | urlError : ChatOutcome
  | timedOut : ChatOutcome
  | interrupted : ChatOutcome
  | okStream : List StreamLine → ChatOutcome
  | okSingle : List Char → ChatOutcome

def assistantRole : List Char := "assistant".toList

/-- `ChatSession.chat` (lines 114–195): streaming success assembles
`full_response` via the streaming loop, non-streaming success reads it from
the single response body; both append one assistant message and return the
full response.  The three exception handlers return `None` and leave the
message list untouched. -/
def chatResult (s : ChatSession) : ChatOutcome → ChatSession × Option (List Char)
  | .urlError => (s, none)
  | .timedOut => (s, none)
  | .interrupted => (s, none)
  | .okStream lines =>
    let st := runStream initParse lines
    ({ s with messages := s.messages ++ [⟨assistantRole, st.full⟩] }, some st.full)
  | .okSingle c =>
    ({ s with messages := s.messages ++ [⟨assistantRole, c⟩] }, some c)

/-!
### Session persistence (`save_session` / `load_session`)

The history directory `~/.ask_history` is modelled as a list of files with a
name, a modification time, and (for the session files that `save_session`
writes as JSON) the stored model name and message list.  Writing a file that
already exists replaces it and refreshes its mtime; the model gives a newly
written file a modification time strictly greater than every existing one.
JSON serialisation is modelled as storing the structured data itself. -/
structure HFile where
  name : List Char
  mtime : Nat
  model : List Char
  messages : List Message
deriving DecidableEq

def jsonSuffix : List Char := ".json".toList

/-- `isSuf suf s` decides whether `suf` is a suffix of `s`. -/
def isSuf (suf s : List Char) : Bool := isPre suf.reverse s.reverse

/-- `MAX_HISTORY_SESSIONS` (`ask.py` line 55). -/
def MAX_HISTORY_SESSIONS : Nat := 50

/-- The character class kept by `re.sub(r'[^a-zA-Z0-9_-]', '', name)`. -/
def allowedChar (c : Char) : Bool :=
  ('a' ≤ c && c ≤ 'z') || ('A' ≤ c && c ≤ 'Z') || ('0' ≤ c && c ≤ '9') ||
    c == '_' || c == '-'

/-- Name sanitisation in `save_session`: delete every character outside
`[a-zA-Z0-9_-]`. -/
def sanitizeName (n : List Char) : List Char := n.filter allowedChar

/-- The base filename chosen by `save_session`:
`safe_name = re.sub(r'[^a-zA-Z0-9_-]', '', name) if name else timestamp` —
note that Python's truthiness sends both `None` and the empty string to the
timestamp branch. -/
def sessionBase (name : Option (List Char)) (timestamp : List Char) : List Char :=
  match name with
  | some n => if n.isEmpty then timestamp else sanitizeName n
  | none => timestamp

/-- The filename written by `save_session`: `f"{safe_name}.json"`. -/
def sessionFilename (name : Option (List Char)) (timestamp : List Char) : List Char :=
  sessionBase name timestamp ++ jsonSuffix

/-- Largest modification time present in the directory. -/
def maxMtime (fs : List HFile) : Nat := fs.foldr (fun f m => max f.mtime m) 0

/-- Ordering of files by modification time, the key of
`sorted(HISTORY_DIR.glob("*.json"), key=os.path.getmtime)`. -/
def mtimeLe (a b : HFile) : Prop := a.mtime ≤ b.mtime

instance : DecidableRel mtimeLe := fun a b => Nat.decLe a.mtime b.mtime

instance : IsTotal HFile mtimeLe := ⟨fun a b => Nat.le_total a.mtime b.mtime⟩

instance : IsTrans HFile mtimeLe := ⟨fun _ _ _ h h' => Nat.le_trans h h'⟩

/-- The retention pruning at the end of `save_session` (lines 258–262):
glob all `*.json` files, sort them by mtime, and when there are more than
`MAX_HISTORY_SESSIONS` of them unlink the oldest ones
(`sessions[:-MAX_HISTORY_SESSIONS]`).  Unlinking is deletion by path, i.e.
by file name. -/
def pruneSessions (fs : List HFile) : List HFile :=
  let sessions := List.insertionSort mtimeLe (fs.filter fun f => isSuf jsonSuffix f.name)
  if MAX_HISTORY_SESSIONS < sessions.length then
    let olds := sessions.take (sessions.length - MAX_HISTORY_SESSIONS)
    fs.filter fun f => !(olds.any fun o => o.name == f.name)
  else fs

/-- `save_session` (lines 240–262): write the session JSON under the
sanitised (or timestamp) filename — replacing any existing file of that
name, with a fresh modification time — then prune old sessions. -/
def save_session (fs : List HFile) (session : ChatSession)
    (name : Option (List Char)) (timestamp : List Char) : List HFile :=
  let fname := sessionFilename name timestamp
  pruneSessions
    ((fs.filter fun f => f.name ≠ fname) ++
      [⟨fname, maxMtime fs + 1, session.model, session.messages⟩])

/-- The directory contents between the write and the pruning step of
`save_session` (used to phrase what the pruning step removed). -/
def writtenDir (fs : List HFile) (session : ChatSession)
    (name : Option (List Char)) (timestamp : List Char) : List HFile :=
  (fs.filter fun f => f.name ≠ sessionFilename name timestamp) ++
    [⟨sessionFilename name timestamp, maxMtime fs + 1, session.model, session.messages⟩]

/-- All suffixes of a list, longest first (including the list itself and
`[]`). -/
def allSuffixes : List Char → List (List Char)
  | [] => [[]]
  | c :: cs => (c :: cs) :: allSuffixes cs

/-- Glob matching for the patterns `load_session` builds
(`f"*{name}*.json"`): `*` matches any (possibly empty) character sequence,
`?` any single character; all other pattern characters match literally.
This is `fnmatch` semantics for patterns without character classes
(`pathlib.Path.glob` does not hide dotfiles). -/
def globMatch : List Char → List Char → Bool
  | [], s => s.isEmpty
  | p :: ps, s =>
    if p = '*' then (allSuffixes s).any fun t => globMatch ps t
    else
      match s with
      | [] => false
      | c :: cs => (p == '?' || p == c) && globMatch ps cs

/-- Descending mtime order, the key of
`sorted(..., key=os.path.getmtime, reverse=True)` in `load_session`. -/
def mtimeGe (a b : HFile) : Prop := b.mtime ≤ a.mtime

instance : DecidableRel mtimeGe := fun a b => Nat.decLe b.mtime a.mtime

instance : IsTotal HFile mtimeGe := ⟨fun a b => Nat.le_total b.mtime a.mtime⟩

instance : IsTrans HFile mtimeGe := ⟨fun _ _ _ h h' => Nat.le_trans h' h⟩

/-- `load_session` (lines 265–292): look for the exact file
`f"{name}.json"`; when absent, glob `f"*{name}*.json"`, sort the matches by
modification time, newest first, and take the first; when that also fails,
print an error and return `None`.  On success it returns a session whose
model and messages are the stored ones. -/
def load_session (fs : List HFile) (name : List Char) : Option ChatSession :=
  match fs.find? fun f => f.name == name ++ jsonSuffix with
  | some f => some ⟨f.model, f.messages⟩
  | none =>
    let pat := '*' :: (name ++ '*' :: jsonSuffix)
    match List.insertionSort mtimeGe (fs.filter fun f => globMatch pat f.name) with
    | f :: _ => some ⟨f.model, f.messages⟩
    | [] => none


/-!
### Model listing (`list_models` in `ask.py` and `ask_simple.py`)

A model entry of the `/api/tags` response and the lines the two
implementations print.  Formatting details (column widths, colours, size in
GB) are abstracted into the line constructors; what matters for the claims
is which lines are printed, in which order. -/
structure ModelInfo where
  name : List Char
  size : Nat
  modified : List Char
deriving DecidableEq

inductive OutLine where
  | hint : OutLine
  | header : OutLine
  | modelLine : List Char → Bool → OutLine
deriving DecidableEq

/-- Lexicographic comparison of strings by character code, the order of
Python's `sort(key=lambda x: x['name'])`. -/
def strLeB : List Char → List Char → Bool
  | [], _ => true
  | _ :: _, [] => false
  | a :: as, b :: bs =>
    decide (a.toNat < b.toNat) || (a.toNat == b.toNat && strLeB as bs)

/-- `strLeB` as the sorting relation on model entries. -/
def modelNameLe (a b : ModelInfo) : Prop := strLeB a.name b.name = true

instance : DecidableRel modelNameLe := fun a b => instDecidableEqBool (strLeB a.name b.name) true

instance : IsTotal ModelInfo modelNameLe :=
  ⟨by
    intro a b
    unfold modelNameLe
    generalize a.name = x
    generalize b.name = y
    induction x generalizing y with
    | nil => exact Or.inl rfl
    | cons c cs ih =>
      cases y with
      | nil => exact Or.inr rfl
      | cons d ds =>
        simp only [strLeB, Bool.or_eq_true, decide_eq_true_eq, Bool.and_eq_true,
          beq_iff_eq]
        rcases Nat.lt_trichotomy c.toNat d.toNat with h | h | h
        · exact Or.inl (Or.inl h)
        · rcases ih ds with h' | h'
          · exact Or.inl (Or.inr ⟨h, h'⟩)
          · exact Or.inr (Or.inr ⟨h.symm, h'⟩)
        · exact Or.inr (Or.inl h)⟩

instance : IsTrans ModelInfo modelNameLe :=
  ⟨by
    have key : ∀ (x y z : List Char), strLeB x y = true → strLeB y z = true →
        strLeB x z = true := by
      intro x
      induction x with
      | nil => intro y z _ _; rfl
      | cons cx xs ih =>
        intro y z hxy hyz
        cases y with
        | nil => exact absurd hxy (by simp [strLeB])
        | cons cy ys =>
          cases z with
          | nil => exact absurd hyz (by simp [strLeB])
          | cons cz zs =>
            simp only [strLeB, Bool.or_eq_true, decide_eq_true_eq, Bool.and_eq_true,
              beq_iff_eq] at hxy hyz ⊢
            rcases hxy with h1 | ⟨h1, h1t⟩ <;> rcases hyz with h2 | ⟨h2, h2t⟩
            · exact Or.inl (by omega)
            · exact Or.inl (by omega)
            · exact Or.inl (by omega)
            · exact Or.inr ⟨by omega, ih ys zs h1t h2t⟩
    exact fun a b c hab hbc => key a.name b.name c.name hab hbc⟩

/-- `name.split(":")[0]`: the part of a model name before the first colon. -/
def beforeColon (s : List Char) : List Char := s.takeWhile fun c => c ≠ ':'

/-- The default-model check of `ask.py` line 222. -/
def isDefaultModel (defModel name : List Char) : Bool :=
  name == defModel || beforeColon name == beforeColon defModel

/-- The API path `list_models` requests. -/
def tagsPath : List Char := "/api/tags".toList

/-- `list_models` of `ask.py` (lines 198–237), as the list of GET request
paths it issues and the lines it prints: one GET of `/api/tags`; on an
empty model list a hint (`"No models found. Pull one with: ollama pull
<model>"`) and nothing else; otherwise a header followed by one line per
model, the models sorted by name. -/
def list_models (defModel : List Char) (models : List ModelInfo) :
    List (List Char) × List OutLine :=
  ([tagsPath],
    if models.isEmpty then [.hint]
    else
      .header ::
        (List.insertionSort modelNameLe models).map fun m =>
          .modelLine m.name (isDefaultModel defModel m.name))

/-- `list_models` of `ask_simple.py` (lines 59–69): one line per model,
sorted by name; no header and no hint — an empty model list prints
nothing. -/
def list_models_simple (models : List ModelInfo) : List OutLine :=
  (List.insertionSort modelNameLe models).map fun m => .modelLine m.name false

/-!
### Mode selection in `main` (`ask.py` lines 437–463)
-/

/-- Python whitespace characters stripped by `str.strip()` (ASCII range). -/
def isPySpace (c : Char) : Bool :=
  c == ' ' || c == '\t' || c == '\n' || c == '\x0d' || c == '\x0b' || c == '\x0c'

/-- `str.strip()`. -/
def pyStrip (s : List Char) : List Char :=
  ((s.dropWhile isPySpace).reverse.dropWhile isPySpace).reverse

/-- `" ".join(args.prompt)`. -/
def joinSpace : List (List Char) → List Char
  | [] => []
  | [a] => a
  | a :: b :: rest => a ++ ' ' :: joinSpace (b :: rest)

/-- The separator inserted between prompt and piped input:
`"\n\nContext:\n"`. -/
def contextSep : List Char := "\n\nContext:\n".toList

inductive Mode where
  | interactive : Mode
  | oneShot : List Char → Mode
deriving DecidableEq

/-- The mode selection and one-shot message assembly of `main`
(lines 437–463): `stdin_input` is the piped input stripped of surrounding
whitespace (empty when stdin is a tty), `prompt_text` the space-joined
positional arguments; interactive mode runs iff both are falsy, otherwise
the one-shot user message is built from the truthy parts, joined by the
context separator when both are present. -/
def mainMode (promptArgs : List (List Char)) (stdinRaw : Option (List Char)) : Mode :=
  let prompt_text := joinSpace promptArgs
  let stdin_input := match stdinRaw with
    | none => []
    | some s => pyStrip s
  if prompt_text.isEmpty && stdin_input.isEmpty then .interactive
  else
    let fc : List Char := if prompt_text.isEmpty then [] else prompt_text
    let fc : List Char :=
      if stdin_input.isEmpty then fc
      else (if fc.isEmpty then [] else fc ++ contextSep) ++ stdin_input
    .oneShot fc


/-!
### Specification-side notions used by the claims
-/

/-- The `.json`-named files of the directory (what
`HISTORY_DIR.glob("*.json")` returns). -/
def jsonFiles (fs : List HFile) : List HFile :=
  fs.filter fun f => isSuf jsonSuffix f.name

/-- The stem of a session filename: the name with the `.json` suffix
removed.  A session's name is its stem (saving under `name` writes
`name.json`). -/
def stemOf (fname : List Char) : List Char :=
  fname.take (fname.length - jsonSuffix.length)

/-- A streamed response carrying one `<think>…</think>` block whose two tag
strings each lie wholly inside a single chunk: the concatenation of the
chunks is `A ++ "<think>" ++ B ++ "</think>" ++ C`, and the chunk list
splits accordingly — either the two tags sit in two different chunks, or
the whole block sits inside one chunk. -/
def SingleBlockChunking (chunks : List (List Char)) (A B C : List Char) : Prop :=
  (∃ as xa yb bs xb yc cs,
      chunks =
        as ++ (xa ++ thinkOpen ++ yb) :: (bs ++ (xb ++ thinkClose ++ yc) :: cs) ∧
      A = as.flatten ++ xa ∧ B = yb ++ bs.flatten ++ xb ∧ C = yc ++ cs.flatten) ∨
  (∃ as xa yc cs,
      chunks = as ++ (xa ++ thinkOpen ++ B ++ thinkClose ++ yc) :: cs ∧
      A = as.flatten ++ xa ∧ C = yc ++ cs.flatten)

/-!
## Theorems
-/

/-- **C3.** When streaming, `ChatSession.chat` consumes newline-delimited
JSON objects and stops reading at the first object whose `"done"` field is
true — the lines after it do not affect the result — and any line that is
not valid JSON is skipped, contributing nothing to the assembled response
or thinking text: the result is unchanged when all invalid lines are
removed. -/
theorem c3_stops_at_done_skips_invalid (st : ParseState) (ls : List StreamLine) :
    runStream st ls = runStream st (takeToDone ls) ∧
    runStream st ls = runStream st (ls.filter fun l => l != StreamLine.invalid) := by
  constructor
  · induction ls generalizing st with
    | nil => rfl
    | cons l ls ih =>
      by_cases h : lineDone l = true
      · simp [runStream, takeToDone, h]
      · simp only [Bool.not_eq_true] at h
        simp [runStream, takeToDone, h, ih]
  · induction ls generalizing st with
    | nil => rfl
    | cons l ls ih =>
      cases l with
      | invalid => simpa [runStream, lineState, lineDone] using ih st
      | valid msg d =>
        by_cases h : d = true
        · simp [runStream, lineDone, h]
        · simp only [Bool.not_eq_true] at h
          simp [runStream, lineDone, h, ih]

/-- **C8.** `ChatSession.chat` returns `None` on a connection error, a
timeout or a keyboard interrupt, leaving the session's message list (and
model) unchanged; on success it appends exactly one assistant message
holding the full response and returns that response. -/
theorem c8_chat_error_none_success_appends (s : ChatSession) :
    (chatResult s .urlError = (s, none) ∧
      chatResult s .timedOut = (s, none) ∧
      chatResult s .interrupted = (s, none)) ∧
    (∀ lines,
      (chatResult s (.okStream lines)).1.messages =
          s.messages ++ [⟨assistantRole, (runStream initParse lines).full⟩] ∧
        (chatResult s (.okStream lines)).1.model = s.model ∧
        (chatResult s (.okStream lines)).2 = some (runStream initParse lines).full) ∧
    (∀ c,
      (chatResult s (.okSingle c)).1.messages = s.messages ++ [⟨assistantRole, c⟩] ∧
        (chatResult s (.okSingle c)).1.model = s.model ∧
        (chatResult s (.okSingle c)).2 = some c) :=
  ⟨⟨rfl, rfl, rfl⟩, fun _ => ⟨rfl, rfl, rfl⟩, fun _ => ⟨rfl, rfl, rfl⟩⟩

/-- **C1, counterexample.** When the literal tag `"<think>"` is split
across two consecutive chunks (`"<thi"` then `"nk>hello</think>world"`),
the parser does not recognise it: the reassembled thinking text and the
returned full response both differ from the single-chunk parse of the same
concatenated stream (the multi-chunk parse returns full response
`"<thiworld"` and thinking text `"nk>hello"`, the single-chunk parse
`"world"` and `"hello"`). -/
theorem c1_split_tag_counterexample :
    (processChunks ["<thi".toList, "nk>hello</think>world".toList]).full ≠
        (processChunks [("<thi" ++ "nk>hello</think>world").toList]).full ∧
      (processChunks ["<thi".toList, "nk>hello</think>world".toList]).think ≠
        (processChunks [("<thi" ++ "nk>hello</think>world").toList]).think ∧
      ("<thi" ++ "nk>hello</think>world").toList =
        "<thi".toList ++ "nk>hello</think>world".toList := by decide

/-- **C2, counterexample.** A stream of one single chunk
`"<think>a</think>b<think>c</think>d"` satisfies the claim's hypothesis —
every tag occurrence lies wholly inside a single chunk — yet the text `"d"`
outside the markers is missing from the returned full response (which is
just `"b"`), and the text `"c"` between the second pair of markers is
missing from the thinking content (which is just `"a"`): everything after
the second `"<think>"` of the chunk is dropped by `parts[1]`. -/
theorem c2_dropped_text_counterexample :
    (processChunks ["<think>a</think>b<think>c</think>d".toList]).full = "b".toList ∧
      (processChunks ["<think>a</think>b<think>c</think>d".toList]).think = "a".toList := by
  decide

/-- **C6, counterexample.** The program's mode is not determined by
whether the prompt-argument list is empty and piped stdin is present: with
the single empty-string prompt argument (`ask ""`) and no piped input it
enters interactive mode although a prompt argument is given, and with
whitespace-only piped input and no prompt arguments it also enters
interactive mode although piped input is present — the code tests Python
truthiness of the joined prompt text and of the stripped stdin text. -/
theorem c6_mode_counterexample :
    mainMode [([] : List Char)] none = .interactive ∧
      ([([] : List Char)] ≠ ([] : List (List Char))) ∧
      mainMode [] (some "  ".toList) = .interactive := by decide

/-- **C7, counterexample.** `list_models` of `ask_simple.py` prints no
hint message when the returned model list is empty: it prints nothing at
all. -/
theorem c7_no_hint_counterexample : list_models_simple [] = [] := by decide

/-- **C9, counterexample.** For the user-supplied empty name,
`save_session` does not write to the sanitised-name file `".json"`: the
empty string is falsy in Python, so the timestamp branch is taken
instead. -/
theorem c9_empty_name_counterexample :
    sessionFilename (some []) "20260101_000000".toList =
        "20260101_000000.json".toList ∧
      sessionFilename (some []) "20260101_000000".toList ≠
        sanitizeName [] ++ jsonSuffix := by decide

/-- **C10, counterexample.** `load_session` interpolates the name into a
glob pattern, so a glob metacharacter in the name acts as a wildcard
rather than matching itself: with the single history file `"ab.json"`,
loading the name `"*"` succeeds via the fallback although no file name
contains the character `'*'` at all. -/
theorem c10_glob_metachar_counterexample :
    load_session [⟨"ab.json".toList, 0, "m".toList, []⟩] "*".toList =
        some ⟨"m".toList, []⟩ ∧
      containsSub "*".toList "ab.json".toList = false := by decide

/-- **C5, counterexample.** The empty name consists only of allowed
characters, yet saving under it and loading it back can yield a different
session: with a pre-existing file `".json"` (itself produced by saving
under a name whose characters are all sanitised away, e.g. `"..."`),
`save_session` with the empty name writes to a timestamp file (the empty
string is falsy), while `load_session` of the empty name finds the exact
file `".json"` and returns the old session stored there. -/
theorem c5_empty_name_counterexample :
    load_session
        (save_session [⟨".json".toList, 0, "m0".toList, []⟩]
          ⟨"m1".toList, [⟨"user".toList, "hi".toList⟩]⟩
          (some []) "20260101_000000".toList)
        [] =
      some ⟨"m0".toList, []⟩ ∧
    (∀ c ∈ ([] : List Char), allowedChar c = true) ∧
    "m0".toList ≠ "m1".toList := by decide

/-!
### String-matching lemmas
-/

theorem isPre_iff (p s : List Char) : isPre p s = true ↔ p <+: s := by
  induction p generalizing s with
  | nil => simp [isPre]
  | cons a as ih =>
    cases s with
    | nil => simp [isPre]
    | cons b bs =>
      simp [isPre, ih, List.cons_prefix_cons, beq_iff_eq]

theorem containsSub_iff (p s : List Char) : containsSub p s = true ↔ p <:+: s := by
  unfold containsSub
  rw [List.any_eq_true]
  constructor
  · rintro ⟨i, -, hp⟩
    exact ((isPre_iff _ _).mp hp).isInfix.trans (List.drop_suffix i s).isInfix
  · rintro ⟨u, v, huv⟩
    refine ⟨u.length, List.mem_range.mpr ?_, (isPre_iff _ _).mpr ?_⟩
    · have : s.length = u.length + (p.length + v.length) := by
        rw [← huv]; simp [Nat.add_assoc]
      omega
    · rw [← huv, List.append_assoc, List.drop_left]
      exact List.prefix_append p v

theorem isSuf_iff (p s : List Char) : isSuf p s = true ↔ p <:+ s := by
  rw [isSuf, isPre_iff, List.reverse_prefix]

/-- A prefix of an append that is no longer than the first part is a prefix
of the first part. -/
theorem prefix_append_le {α : Type} {u v w : List α} (h : u <+: v ++ w)
    (hl : u.length ≤ v.length) : u <+: v := by
  have := List.prefix_iff_eq_take.mp h
  rw [List.take_append_eq_append_take, Nat.sub_eq_zero_of_le hl, List.take_zero,
    List.append_nil] at this
  exact this ▸ List.take_prefix u.length v

theorem firstSplit_eq_none_iff {sep : List Char} (hsep : sep ≠ []) (s : List Char) :
    firstSplit sep s = none ↔ ¬ sep <:+: s := by
  induction s with
  | nil => simp [firstSplit, List.infix_nil, hsep]
  | cons c cs ih =>
    by_cases hp : isPre sep (c :: cs) = true
    · simp only [firstSplit, hp, if_true]
      have := (isPre_iff _ _).mp hp
      simp [List.infix_cons_iff, this]
    · rw [Bool.not_eq_true] at hp
      simp only [firstSplit, hp, Bool.false_eq_true, if_false]
      have hnpre : ¬ sep <+: (c :: cs) := fun h =>
        Bool.true_eq_false.mp (((isPre_iff _ _).mpr h).symm.trans hp)
      cases heq : firstSplit sep cs with
      | none =>
        have := ih.mp heq
        simp [List.infix_cons_iff, hnpre, this]
      | some x =>
        have hcs : sep <:+: cs := by
          by_contra hin
          rw [← ih] at hin
          rw [heq] at hin
          exact Option.noConfusion hin
        simp [List.infix_cons_iff, hnpre, hcs]

theorem firstSplit_append {sep : List Char} (hsep : sep ≠ [])
    (hb : ∀ k, 0 < k → k < sep.length → isPre (sep.drop k) sep = false)
    (y : List Char) :
    ∀ x : List Char, ¬ sep <:+: x → firstSplit sep (x ++ (sep ++ y)) = some (x, y) := by
  intro x
  induction x with
  | nil =>
    intro _
    cases sep with
    | nil => exact absurd rfl hsep
    | cons c cs =>
      have hpre : isPre (c :: cs) (c :: (cs ++ y)) = true :=
        (isPre_iff _ _).mpr (List.prefix_append (c :: cs) y)
      simp only [List.nil_append, List.cons_append, List.append_eq, firstSplit, hpre, if_true]
      have hdrop : (c :: (cs ++ y)).drop (c :: cs).length = y := by
        rw [← List.cons_append]
        exact List.drop_left _ _
      simp only [List.append_eq] at hdrop ⊢
      rw [hdrop]
  | cons a x' ihx =>
    intro hx
    have hx' : ¬ sep <:+: x' := fun h => hx (h.trans (List.suffix_cons a x').isInfix)
    have hm : 0 < (a :: x').length := by simp
    have hpre : isPre sep (a :: (x' ++ (sep ++ y))) = false := by
      by_contra hcon
      rw [Bool.not_eq_false, isPre_iff] at hcon
      have hcon' : sep <+: (a :: x') ++ (sep ++ y) := hcon
      rcases le_or_lt sep.length (a :: x').length with hle | hlt
      · exact hx (prefix_append_le hcon' hle).isInfix
      · have htake := List.prefix_iff_eq_take.mp hcon'
        rw [List.take_append_eq_append_take, List.take_of_length_le (Nat.le_of_lt hlt),
          List.take_append_of_le_length (by omega)] at htake
        have hdrop : sep.drop (a :: x').length =
            sep.take (sep.length - (a :: x').length) := by
          conv_lhs => rw [htake]
          exact List.drop_left _ _
        have hp : isPre (sep.drop (a :: x').length) sep = true :=
          (isPre_iff _ _).mpr (hdrop ▸ List.take_prefix _ _)
        rw [hb _ hm hlt] at hp
        exact Bool.false_ne_true hp
    simp only [List.cons_append, List.append_eq, firstSplit, hpre, Bool.false_eq_true, if_false]
    have hrec : firstSplit sep (x' ++ (sep ++ y)) = some (x', y) := ihx hx'
    simp only [List.append_eq] at hrec
    rw [hrec]

theorem pyParts_none {sep : List Char} (hsep : sep ≠ []) {s : List Char}
    (hs : ¬ sep <:+: s) : pyParts sep s = none := by
  unfold pyParts
  rw [(firstSplit_eq_none_iff hsep s).mpr hs]

theorem pyParts_append {sep : List Char} (hsep : sep ≠ [])
    (hb : ∀ k, 0 < k → k < sep.length → isPre (sep.drop k) sep = false)
    {x y : List Char} (hx : ¬ sep <:+: x) (hy : ¬ sep <:+: y) :
    pyParts sep (x ++ (sep ++ y)) = some (x, y) := by
  simp only [pyParts, firstSplit_append hsep hb y x hx,
    (firstSplit_eq_none_iff hsep y).mpr hy]

/-- An occurrence of `s` inside `x ++ z` lies inside `x`, inside `z`, or
straddles the boundary, in which case a proper nonempty prefix of `s` is a
suffix of `x` and the matching remainder of `s` is a prefix of `z`. -/
theorem infix_append_tri {α : Type} {s x z : List α} (h : s <:+: x ++ z) :
    s <:+: x ∨ s <:+: z ∨
      ∃ k, 0 < k ∧ k < s.length ∧ s.take k <:+ x ∧ s.drop k <+: z := by
  obtain ⟨u, v, huv⟩ := h
  rcases le_or_lt (u.length + s.length) x.length with h1 | h1
  · left
    have hx := List.take_left x z
    rw [← huv, List.take_append_eq_append_take,
      List.take_of_length_le (by simp only [List.length_append]; omega :
        (u ++ s).length ≤ x.length)] at hx
    exact ⟨u, v.take (x.length - (u ++ s).length), hx⟩
  · rcases le_or_lt x.length u.length with h2 | h2
    · right; left
      have e1 : x.length - u.length = 0 := Nat.sub_eq_zero_of_le h2
      have e2 : x.length - (u ++ s).length = 0 :=
        Nat.sub_eq_zero_of_le (by simp only [List.length_append]; omega)
      have hz := List.drop_left x z
      rw [← huv, List.drop_append_eq_append_drop, List.drop_append_eq_append_drop,
        e1, e2, List.drop_zero, List.drop_zero] at hz
      exact ⟨u.drop x.length, v, hz⟩
    · right; right
      have e0 : x.length - (u ++ s).length = 0 :=
        Nat.sub_eq_zero_of_le (by simp only [List.length_append]; omega)
      refine ⟨x.length - u.length, by omega, by omega, ?_, ?_⟩
      · have hx := List.take_left x z
        rw [← huv, List.take_append_eq_append_take, e0, List.take_zero,
          List.append_nil, List.take_append_eq_append_take,
          List.take_of_length_le (Nat.le_of_lt h2)] at hx
        exact ⟨u, hx⟩
      · have hz := List.drop_left x z
        rw [← huv, List.drop_append_eq_append_drop, e0, List.drop_zero,
          List.drop_append_eq_append_drop,
          List.drop_eq_nil_of_le (Nat.le_of_lt h2), List.nil_append] at hz
        exact ⟨v, hz⟩

theorem thinkOpen_ne : thinkOpen ≠ [] := by decide

theorem thinkClose_ne : thinkClose ≠ [] := by decide

/-- `"<think>"` has no border: no proper nonempty suffix of it is one of
its prefixes, so an occurrence cannot overlap a copy of itself. -/
theorem thinkOpen_border :
    ∀ k, 0 < k → k < thinkOpen.length → isPre (thinkOpen.drop k) thinkOpen = false := by
  intro k h1 h2
  have h7 : thinkOpen.length = 7 := rfl
  rw [h7] at h2
  interval_cases k <;> decide

/-- `"</think>"` has no border either. -/
theorem thinkClose_border :
    ∀ k, 0 < k → k < thinkClose.length → isPre (thinkClose.drop k) thinkClose = false := by
  intro k h1 h2
  have h8 : thinkClose.length = 8 := rfl
  rw [h8] at h2
  interval_cases k <;> decide

/-- `"<think>"` cannot occur in `b ++ "</think>" ++ y` unless it occurs in
`b` or in `y`: it does not occur inside `"</think>"` and cannot straddle the
boundaries. -/
theorem thinkOpen_not_infix_mid {b y : List Char} (hb : ¬ thinkOpen <:+: b)
    (hy : ¬ thinkOpen <:+: y) : ¬ thinkOpen <:+: b ++ (thinkClose ++ y) := by
  intro h
  rcases infix_append_tri h with h' | h' | ⟨k, hk0, hk7, hsuf, hpre⟩
  · exact hb h'
  · rcases infix_append_tri h' with h'' | h'' | ⟨k, hk0, hk7, hsuf, hpre⟩
    · have hc : containsSub thinkOpen thinkClose = true := (containsSub_iff _ _).mpr h''
      exact absurd hc (by decide)
    · exact hy h''
    · have hc : isSuf (thinkOpen.take k) thinkClose = true := (isSuf_iff _ _).mpr hsuf
      have h7 : thinkOpen.length = 7 := rfl
      rw [h7] at hk7
      interval_cases k <;> exact absurd hc (by decide)
  · have hple : (thinkOpen.drop k).length ≤ thinkClose.length := by
      have h7 : thinkOpen.length = 7 := rfl
      have h8 : thinkClose.length = 8 := rfl
      rw [List.length_drop, h7, h8]
      omega
    have hc : isPre (thinkOpen.drop k) thinkClose = true :=
      (isPre_iff _ _).mpr (prefix_append_le hpre hple)
    have h7 : thinkOpen.length = 7 := rfl
    rw [h7] at hk7
    interval_cases k <;> exact absurd hc (by decide)

/-!
### Step lemmas for `processContent`
-/

/-- A chunk containing neither tag is appended verbatim to the thinking
text or to the full response, according to the current `in_thinking`
flag. -/
theorem processContent_no_tags (st : ParseState) {c : List Char}
    (h1 : ¬ thinkOpen <:+: c) (h2 : ¬ thinkClose <:+: c) :
    processContent st c =
      if st.inThink then { st with think := st.think ++ c }
      else { st with full := st.full ++ c } := by
  simp only [processContent, pyParts_none thinkOpen_ne h1, pyParts_none thinkClose_ne h2]

/-- A chunk of the form `x ++ "<think>" ++ y` (no other tag occurrences):
`x` goes to the full response, `y` to the thinking text, `in_thinking`
becomes true — regardless of the incoming flag. -/
theorem processContent_start_tag (st : ParseState) {x y : List Char}
    (hx : ¬ thinkOpen <:+: x) (hy1 : ¬ thinkOpen <:+: y) (hy2 : ¬ thinkClose <:+: y) :
    processContent st (x ++ (thinkOpen ++ y)) =
      ⟨st.full ++ x, st.think ++ y, true⟩ := by
  simp only [processContent, pyParts_append thinkOpen_ne thinkOpen_border hx hy1,
    pyParts_none thinkClose_ne hy2]
  simp

/-- A chunk of the form `x ++ "</think>" ++ y` with no `"<think>"` in it:
`x` goes to the thinking text, `y` to the full response, `in_thinking`
becomes false — regardless of the incoming flag. -/
theorem processContent_end_tag (st : ParseState) {x y : List Char}
    (hc1 : ¬ thinkOpen <:+: x ++ (thinkClose ++ y))
    (hx : ¬ thinkClose <:+: x) (hy : ¬ thinkClose <:+: y) :
    processContent st (x ++ (thinkClose ++ y)) =
      ⟨st.full ++ y, st.think ++ x, false⟩ := by
  simp only [processContent, pyParts_none thinkOpen_ne hc1,
    pyParts_append thinkClose_ne thinkClose_border hx hy]
  simp

/-- A chunk holding a whole block `x ++ "<think>" ++ b ++ "</think>" ++ y`:
`x` and `y` go to the full response, `b` to the thinking text. -/
theorem processContent_both_tags (st : ParseState) {x b y : List Char}
    (hx : ¬ thinkOpen <:+: x) (hmid : ¬ thinkOpen <:+: b ++ (thinkClose ++ y))
    (hb2 : ¬ thinkClose <:+: b) (hy2 : ¬ thinkClose <:+: y) :
    processContent st (x ++ (thinkOpen ++ (b ++ (thinkClose ++ y)))) =
      ⟨st.full ++ x ++ y, st.think ++ b, false⟩ := by
  simp only [processContent, pyParts_append thinkOpen_ne thinkOpen_border hx hmid,
    pyParts_append thinkClose_ne thinkClose_border hb2 hy2]
  simp

/-- Folding tag-free chunks while outside a thinking block appends their
concatenation to the full response. -/
theorem foldl_no_tags_full :
    ∀ (cs : List (List Char)) (st : ParseState), st.inThink = false →
      (∀ c ∈ cs, ¬ thinkOpen <:+: c ∧ ¬ thinkClose <:+: c) →
      cs.foldl processContent st = { st with full := st.full ++ cs.flatten } := by
  intro cs
  induction cs with
  | nil => intro st _ _; simp
  | cons c cs ih =>
    intro st hst htags
    have hc := htags c (List.mem_cons_self c cs)
    rw [List.foldl_cons, processContent_no_tags st hc.1 hc.2, hst, if_neg (by simp)]
    rw [ih _ rfl fun d hd => htags d (List.mem_cons_of_mem c hd)]
    simp [List.append_assoc]

/-- Folding tag-free chunks while inside a thinking block appends their
concatenation to the thinking text. -/
theorem foldl_no_tags_think :
    ∀ (cs : List (List Char)) (st : ParseState), st.inThink = true →
      (∀ c ∈ cs, ¬ thinkOpen <:+: c ∧ ¬ thinkClose <:+: c) →
      cs.foldl processContent st = { st with think := st.think ++ cs.flatten } := by
  intro cs
  induction cs with
  | nil => intro st _ _; simp
  | cons c cs ih =>
    intro st hst htags
    have hc := htags c (List.mem_cons_self c cs)
    rw [List.foldl_cons, processContent_no_tags st hc.1 hc.2, hst, if_pos rfl]
    rw [ih _ rfl fun d hd => htags d (List.mem_cons_of_mem c hd)]
    simp [List.append_assoc]

/-- Parsing a stream that carries a single `<think>…</think>` block whose
tags each lie wholly inside one chunk, with no other tag occurrences: the
full response is `A ++ C` and the thinking text is `B`. -/
theorem processChunks_single_block {chunks : List (List Char)} {A B C : List Char}
    (hchunk : SingleBlockChunking chunks A B C)
    (hA1 : ¬ thinkOpen <:+: A) (hA2 : ¬ thinkClose <:+: A)
    (hB1 : ¬ thinkOpen <:+: B) (hB2 : ¬ thinkClose <:+: B)
    (hC1 : ¬ thinkOpen <:+: C) (hC2 : ¬ thinkClose <:+: C) :
    processChunks chunks = ⟨A ++ C, B, false⟩ := by
  rcases hchunk with ⟨as, xa, yb, bs, xb, yc, cs, hcheq, hAeq, hBeq, hCeq⟩ |
    ⟨as, xa, yc, cs, hcheq, hAeq, hCeq⟩
  · subst hcheq; subst hAeq; subst hBeq; subst hCeq
    have h_as : ∀ c ∈ as, ¬ thinkOpen <:+: c ∧ ¬ thinkClose <:+: c := by
      intro c hc
      have hinf : c <:+: as.flatten ++ xa :=
        (List.infix_of_mem_flatten hc).trans (List.prefix_append _ _).isInfix
      exact ⟨fun h => hA1 (h.trans hinf), fun h => hA2 (h.trans hinf)⟩
    have hxa_inf : xa <:+: as.flatten ++ xa := ⟨as.flatten, [], by simp⟩
    have hxa1 : ¬ thinkOpen <:+: xa := fun h => hA1 (h.trans hxa_inf)
    have hyb_inf : yb <:+: yb ++ bs.flatten ++ xb :=
      ⟨[], bs.flatten ++ xb, by simp [List.append_assoc]⟩
    have hyb1 : ¬ thinkOpen <:+: yb := fun h => hB1 (h.trans hyb_inf)
    have hyb2 : ¬ thinkClose <:+: yb := fun h => hB2 (h.trans hyb_inf)
    have h_bs : ∀ c ∈ bs, ¬ thinkOpen <:+: c ∧ ¬ thinkClose <:+: c := by
      intro c hc
      have hinf : c <:+: yb ++ bs.flatten ++ xb :=
        (List.infix_of_mem_flatten hc).trans ⟨yb, xb, by simp [List.append_assoc]⟩
      exact ⟨fun h => hB1 (h.trans hinf), fun h => hB2 (h.trans hinf)⟩
    have hxb_inf : xb <:+: yb ++ bs.flatten ++ xb :=
      ⟨yb ++ bs.flatten, [], by simp [List.append_assoc]⟩
    have hxb1 : ¬ thinkOpen <:+: xb := fun h => hB1 (h.trans hxb_inf)
    have hxb2 : ¬ thinkClose <:+: xb := fun h => hB2 (h.trans hxb_inf)
    have hyc_inf : yc <:+: yc ++ cs.flatten := ⟨[], cs.flatten, by simp⟩
    have hyc1 : ¬ thinkOpen <:+: yc := fun h => hC1 (h.trans hyc_inf)
    have hyc2 : ¬ thinkClose <:+: yc := fun h => hC2 (h.trans hyc_inf)
    have h_cs : ∀ c ∈ cs, ¬ thinkOpen <:+: c ∧ ¬ thinkClose <:+: c := by
      intro c hc
      have hinf : c <:+: yc ++ cs.flatten :=
        (List.infix_of_mem_flatten hc).trans ⟨yc, [], by simp⟩
      exact ⟨fun h => hC1 (h.trans hinf), fun h => hC2 (h.trans hinf)⟩
    have hmid : ¬ thinkOpen <:+: xb ++ (thinkClose ++ yc) :=
      thinkOpen_not_infix_mid hxb1 hyc1
    simp only [processChunks]
    rw [List.foldl_append, foldl_no_tags_full as initParse rfl h_as, List.foldl_cons,
      List.append_assoc xa thinkOpen yb, processContent_start_tag _ hxa1 hyb1 hyb2,
      List.foldl_append, foldl_no_tags_think bs _ rfl h_bs, List.foldl_cons,
      List.append_assoc xb thinkClose yc, processContent_end_tag _ hmid hxb2 hyc2,
      foldl_no_tags_full cs _ rfl h_cs]
    simp [initParse, List.append_assoc]
  · subst hcheq; subst hAeq; subst hCeq
    have h_as : ∀ c ∈ as, ¬ thinkOpen <:+: c ∧ ¬ thinkClose <:+: c := by
      intro c hc
      have hinf : c <:+: as.flatten ++ xa :=
        (List.infix_of_mem_flatten hc).trans (List.prefix_append _ _).isInfix
      exact ⟨fun h => hA1 (h.trans hinf), fun h => hA2 (h.trans hinf)⟩
    have hxa_inf : xa <:+: as.flatten ++ xa := ⟨as.flatten, [], by simp⟩
    have hxa1 : ¬ thinkOpen <:+: xa := fun h => hA1 (h.trans hxa_inf)
    have hyc_inf : yc <:+: yc ++ cs.flatten := ⟨[], cs.flatten, by simp⟩
    have hyc1 : ¬ thinkOpen <:+: yc := fun h => hC1 (h.trans hyc_inf)
    have hyc2 : ¬ thinkClose <:+: yc := fun h => hC2 (h.trans hyc_inf)
    have h_cs : ∀ c ∈ cs, ¬ thinkOpen <:+: c ∧ ¬ thinkClose <:+: c := by
      intro c hc
      have hinf : c <:+: yc ++ cs.flatten :=
        (List.infix_of_mem_flatten hc).trans ⟨yc, [], by simp⟩
      exact ⟨fun h => hC1 (h.trans hinf), fun h => hC2 (h.trans hinf)⟩
    have hmid : ¬ thinkOpen <:+: B ++ (thinkClose ++ yc) :=
      thinkOpen_not_infix_mid hB1 hyc1
    simp only [processChunks]
    rw [List.foldl_append, foldl_no_tags_full as initParse rfl h_as, List.foldl_cons]
    simp only [List.append_assoc]
    rw [processContent_both_tags _ hxa1 hmid hB2 hyc2,
      foldl_no_tags_full cs _ rfl h_cs]
    simp [initParse, List.append_assoc]

/-- **C2 (amended).** For every streamed response whose concatenated
message contents form a single block `A ++ "<think>" ++ B ++ "</think>" ++ C`
with no other tag occurrences, where each of the two marker strings lies
wholly inside a single chunk, `ChatSession.chat` accumulates the text `B`
between the start and end markers into the thinking content and excludes it
from the returned full response, while the text `A` and `C` outside the
markers forms the returned full response in stream order. -/
theorem c2_single_block_separation (chunks : List (List Char)) (A B C : List Char)
    (hchunk : SingleBlockChunking chunks A B C)
    (hA1 : containsSub thinkOpen A = false) (hA2 : containsSub thinkClose A = false)
    (hB1 : containsSub thinkOpen B = false) (hB2 : containsSub thinkClose B = false)
    (hC1 : containsSub thinkOpen C = false) (hC2 : containsSub thinkClose C = false) :
    (processChunks chunks).think = B ∧ (processChunks chunks).full = A ++ C := by
  have conv : ∀ {p s : List Char}, containsSub p s = false → ¬ p <:+: s := by
    intro p s h hc
    rw [(containsSub_iff p s).mpr hc] at h
    exact Bool.true_eq_false.mp h
  have h := processChunks_single_block hchunk (conv hA1) (conv hA2) (conv hB1)
    (conv hB2) (conv hC1) (conv hC2)
  rw [h]
  exact ⟨rfl, rfl⟩

/-- Closed instance of the amended C2: stream `["a<think>b", "</think>c"]`
parses to thinking text `"b"` and full response `"ac"`. -/
theorem c2_single_block_separation_witness :
    (processChunks ["a<think>b".toList, "</think>c".toList]).think = "b".toList ∧
      (processChunks ["a<think>b".toList, "</think>c".toList]).full = "ac".toList := by
  have h := c2_single_block_separation ["a<think>b".toList, "</think>c".toList]
      "a".toList "b".toList "c".toList
      (Or.inl ⟨[], "a".toList, "b".toList, [], [], "c".toList, [],
        by decide, by decide, by decide, by decide⟩)
      (by decide) (by decide) (by decide) (by decide) (by decide) (by decide)
  exact ⟨h.1.trans (by decide), h.2.trans (by decide)⟩

/-- **C1 (amended).** For every streamed response whose concatenated
message contents contain one `<think>…</think>` block and whose two tag
strings each lie wholly inside a single chunk, the streaming parser of
`ChatSession.chat` produces exactly the state it would produce had the
whole stream arrived as a single chunk: thinking text and full response
agree with the single-chunk parse.  (When a tag is split across two
consecutive chunks this fails — see the counterexample.) -/
theorem c1_whole_tags_eq_single_chunk (chunks : List (List Char)) (A B C : List Char)
    (hchunk : SingleBlockChunking chunks A B C)
    (hA1 : containsSub thinkOpen A = false) (hA2 : containsSub thinkClose A = false)
    (hB1 : containsSub thinkOpen B = false) (hB2 : containsSub thinkClose B = false)
    (hC1 : containsSub thinkOpen C = false) (hC2 : containsSub thinkClose C = false) :
    processChunks chunks = processChunks [chunks.flatten] := by
  have conv : ∀ {p s : List Char}, containsSub p s = false → ¬ p <:+: s := by
    intro p s h hc
    rw [(containsSub_iff p s).mpr hc] at h
    exact Bool.true_eq_false.mp h
  have hL := processChunks_single_block hchunk (conv hA1) (conv hA2) (conv hB1)
    (conv hB2) (conv hC1) (conv hC2)
  have hflat : chunks.flatten = A ++ (thinkOpen ++ (B ++ (thinkClose ++ C))) := by
    rcases hchunk with ⟨as, xa, yb, bs, xb, yc, cs, hcheq, hAeq, hBeq, hCeq⟩ |
      ⟨as, xa, yc, cs, hcheq, hAeq, hCeq⟩
    · subst hcheq; subst hAeq; subst hBeq; subst hCeq
      simp [List.flatten_append, List.append_assoc]
    · subst hcheq; subst hAeq; subst hCeq
      simp [List.flatten_append, List.append_assoc]
  have hmid : ¬ thinkOpen <:+: B ++ (thinkClose ++ C) :=
    thinkOpen_not_infix_mid (conv hB1) (conv hC1)
  have hR : processChunks [chunks.flatten] = ⟨A ++ C, B, false⟩ := by
    rw [hflat]
    show List.foldl processContent initParse _ = _
    rw [List.foldl_cons, List.foldl_nil,
      processContent_both_tags _ (conv hA1) hmid (conv hB2) (conv hC2)]
    simp [initParse]
  rw [hL, hR]

/-- Closed instance of the amended C1: the two-chunk stream
`["a<think>b", "</think>c"]` parses exactly like the single chunk
`"a<think>b</think>c"`. -/
theorem c1_whole_tags_eq_single_chunk_witness :
    processChunks ["a<think>b".toList, "</think>c".toList] =
      processChunks ["a<think>b</think>c".toList] := by
  have h := c1_whole_tags_eq_single_chunk ["a<think>b".toList, "</think>c".toList]
      "a".toList "b".toList "c".toList
      (Or.inl ⟨[], "a".toList, "b".toList, [], [], "c".toList, [],
        by decide, by decide, by decide, by decide⟩)
      (by decide) (by decide) (by decide) (by decide) (by decide) (by decide)
  exact h.trans (by decide)

/-- **C7 (amended).** `list_models` of `ask.py` issues a single GET request
to the `/api/tags` endpoint and, when models are returned, prints a header
followed by exactly one line per model with the models ordered by name
(a permutation of the response, sorted); when the returned model list is
empty it prints a hint message and no model lines.  `list_models` of
`ask_simple.py` prints the same one-sorted-line-per-model output but prints
nothing at all — no hint — when the model list is empty. -/
theorem c7_list_models_lines (defModel : List Char) (models : List ModelInfo) :
    (list_models defModel models).1 = [tagsPath] ∧
      (models = [] → (list_models defModel models).2 = [.hint]) ∧
      (models ≠ [] →
        (list_models defModel models).2 =
            .header ::
              (List.insertionSort modelNameLe models).map (fun m =>
                OutLine.modelLine m.name (isDefaultModel defModel m.name)) ∧
          List.Perm (List.insertionSort modelNameLe models) models ∧
          (List.insertionSort modelNameLe models).Sorted modelNameLe) ∧
      list_models_simple [] = [] ∧
      (∀ ms : List ModelInfo,
        list_models_simple ms =
            (List.insertionSort modelNameLe ms).map
              (fun m => OutLine.modelLine m.name false) ∧
          List.Perm (List.insertionSort modelNameLe ms) ms) := by
  refine ⟨rfl, ?_, ?_, rfl, fun ms => ⟨rfl, List.perm_insertionSort _ _⟩⟩
  · rintro rfl; rfl
  · intro h
    refine ⟨?_, List.perm_insertionSort _ _, List.sorted_insertionSort _ _⟩
    simp [list_models, h]

/-- Closed instance of the amended C7: two models are printed sorted by
name after the header, and the default model is marked. -/
theorem c7_list_models_lines_witness :
    (list_models "a".toList
        [⟨"b".toList, 1, "d1".toList⟩, ⟨"a".toList, 2, "d2".toList⟩]).2 =
      [OutLine.header, .modelLine "a".toList true, .modelLine "b".toList false] := by
  have h := ((c7_list_models_lines "a".toList
      [⟨"b".toList, 1, "d1".toList⟩, ⟨"a".toList, 2, "d2".toList⟩]).2.2.1
    (by decide)).1
  exact h.trans (by decide)

/-- **C6 (amended).** The program selects its mode deterministically from
its inputs: it enters interactive chat exactly when the space-joined prompt
arguments form the empty string and the piped stdin input is empty after
stripping surrounding whitespace (in particular when stdin is a tty);
otherwise it performs a one-shot request whose user message is the prompt
text, the stripped stdin text, or the prompt text followed by
`"\n\nContext:\n"` and the stripped stdin text when both are nonempty. -/
theorem c6_mode_selection (promptArgs : List (List Char)) (stdinRaw : Option (List Char)) :
    (mainMode promptArgs stdinRaw = .interactive ↔
      joinSpace promptArgs = [] ∧ (stdinRaw.map pyStrip).getD [] = []) ∧
    (joinSpace promptArgs ≠ [] ∨ (stdinRaw.map pyStrip).getD [] ≠ [] →
      mainMode promptArgs stdinRaw =
        .oneShot
          (if (stdinRaw.map pyStrip).getD [] = [] then joinSpace promptArgs
           else if joinSpace promptArgs = [] then (stdinRaw.map pyStrip).getD []
           else joinSpace promptArgs ++ contextSep ++ (stdinRaw.map pyStrip).getD [])) := by
  have hstdin : (match stdinRaw with
      | none => ([] : List Char)
      | some s => pyStrip s) = (stdinRaw.map pyStrip).getD [] := by
    cases stdinRaw <;> rfl
  by_cases hpt : joinSpace promptArgs = [] <;>
    by_cases hsi : (stdinRaw.map pyStrip).getD [] = []
  · constructor
    · simp [mainMode, hstdin, hpt, hsi]
    · intro h
      rcases h with h | h
      · exact absurd hpt h
      · exact absurd hsi h
  · constructor
    · simp only [mainMode, hstdin, hpt, hsi]
      simp [List.isEmpty_iff, hsi]
    · intro _
      simp only [mainMode, hstdin]
      simp [List.isEmpty_iff, hpt, hsi]
  · constructor
    · simp only [mainMode, hstdin]
      simp [List.isEmpty_iff, hpt, hsi]
    · intro _
      simp only [mainMode, hstdin]
      simp [List.isEmpty_iff, hpt, hsi]
  · constructor
    · simp only [mainMode, hstdin]
      simp [List.isEmpty_iff, hpt, hsi]
    · intro _
      simp only [mainMode, hstdin]
      simp [List.isEmpty_iff, hpt, hsi, List.append_assoc]
  
/-- Closed instance of the amended C6: `ask hi` with piped input `" ctx "`
performs a one-shot request with the context separator. -/
theorem c6_mode_selection_witness :
    mainMode ["hi".toList] (some " ctx ".toList) =
      .oneShot ("hi".toList ++ contextSep ++ "ctx".toList) := by
  have h := (c6_mode_selection ["hi".toList] (some " ctx ".toList)).2
    (Or.inl (by decide))
  exact h.trans (by decide)

/-- **C9 (amended).** For every user-supplied session name, `save_session`
writes to a filename obtained by deleting every character outside
`a-zA-Z0-9_-` from the name — or a timestamp when no name is given **or the
given name is empty** — plus the `.json` suffix; in all cases the filename
contains no path separator (and the timestamp, made of allowed characters,
none either), so the saved file lies directly inside the history
directory. -/
theorem c9_sanitized_filename (name : Option (List Char)) (ts : List Char)
    (hts : ∀ c ∈ ts, allowedChar c = true) :
    (∀ n, name = some n → n ≠ [] →
        sessionFilename name ts = sanitizeName n ++ jsonSuffix) ∧
      (name = none ∨ name = some [] → sessionFilename name ts = ts ++ jsonSuffix) ∧
      (∀ c ∈ sessionFilename name ts, c ≠ '/' ∧ c ≠ '\\') := by
  refine ⟨?_, ?_, ?_⟩
  · rintro n rfl hn
    simp [sessionFilename, sessionBase, List.isEmpty_iff, hn]
  · rintro (rfl | rfl) <;> simp [sessionFilename, sessionBase]
  · intro c hc
    have hjson : ∀ c ∈ jsonSuffix, c ≠ '/' ∧ c ≠ '\\' := by decide
    have hallow : ∀ c : Char, allowedChar c = true → c ≠ '/' ∧ c ≠ '\\' := by
      intro c h
      constructor <;> rintro rfl <;> exact absurd h (by decide)
    rcases List.mem_append.mp hc with h | h
    · apply hallow
      rcases name with - | n
      · exact hts c h
      · by_cases hn : n.isEmpty
        · exact hts c (by simpa [sessionBase, hn] using h)
        · have h' : c ∈ sanitizeName n := by simpa [sessionBase, hn] using h
          exact (List.mem_filter.mp h').2
    · exact hjson c h

/-- Closed instance of the amended C9: sanitisation of the name
`"my/../name"` yields the flat filename `"myname.json"`. -/
theorem c9_sanitized_filename_witness :
    sessionFilename (some "my/../name".toList) "20260101_000000".toList =
      "myname.json".toList :=
  ((c9_sanitized_filename (some "my/../name".toList) "20260101_000000".toList
      (by decide)).1 _ rfl (by decide)).trans (by decide)

/-- Specification of the retention pruning: with distinct file names, when
at most `MAX_HISTORY_SESSIONS` `.json` files are present nothing happens;
otherwise exactly `MAX_HISTORY_SESSIONS` `.json` files remain, and every
file the pruning removed is a `.json` file no newer than any kept `.json`
file. -/
theorem pruneSessions_spec (W : List HFile) (hnd : (W.map HFile.name).Nodup) :
    ((jsonFiles W).length ≤ MAX_HISTORY_SESSIONS → pruneSessions W = W) ∧
      (MAX_HISTORY_SESSIONS < (jsonFiles W).length →
        (jsonFiles (pruneSessions W)).length = MAX_HISTORY_SESSIONS) ∧
      (∀ f ∈ W, f ∉ pruneSessions W →
        isSuf jsonSuffix f.name = true ∧
          ∀ g ∈ jsonFiles (pruneSessions W), f.mtime ≤ g.mtime) := by
  have hjs : W.filter (fun f => isSuf jsonSuffix f.name) = jsonFiles W := rfl
  set js := jsonFiles W with hjs_def
  set sorted := List.insertionSort mtimeLe js with hsorted_def
  have hperm : List.Perm sorted js := List.perm_insertionSort _ _
  have hlen : sorted.length = js.length := hperm.length_eq
  have hjs_sub : ∀ f ∈ js, f ∈ W := fun f hf => (List.mem_filter.mp hf).1
  have hjs_json : ∀ f ∈ js, isSuf jsonSuffix f.name = true :=
    fun f hf => (List.mem_filter.mp hf).2
  by_cases hcase : MAX_HISTORY_SESSIONS < sorted.length
  · -- pruning happens
    set k := sorted.length - MAX_HISTORY_SESSIONS with hk_def
    set olds := sorted.take k with holds_def
    set news := sorted.drop k with hnews_def
    set keep : HFile → Bool := fun f => !(olds.any fun o => o.name == f.name)
      with hkeep_def
    have hpr : pruneSessions W = W.filter keep := by
      simp only [pruneSessions, hjs]
      rw [if_pos hcase]
    have hnd_js : (js.map HFile.name).Nodup :=
      hnd.sublist ((List.filter_sublist W).map HFile.name)
    have hnd_sorted_names : (sorted.map HFile.name).Nodup :=
      ((hperm.map HFile.name).nodup_iff).mpr hnd_js
    have hnd_sorted : sorted.Nodup := hnd_sorted_names.of_map
    have hinj : ∀ a ∈ W, ∀ b ∈ W, a.name = b.name → a = b := by
      intro a ha b hb h
      exact List.inj_on_of_nodup_map hnd ha hb h
    have keyA : ∀ f ∈ W, ((olds.any fun o => o.name == f.name) = true ↔ f ∈ olds) := by
      intro f hf
      constructor
      · intro h
        obtain ⟨o, ho, hoeq⟩ := List.any_eq_true.mp h
        have hoW : o ∈ W := hjs_sub o (hperm.mem_iff.mp (List.mem_of_mem_take ho))
        have : o = f := hinj o hoW f hf (by simpa [beq_iff_eq] using hoeq)
        exact this ▸ ho
      · intro h
        exact List.any_eq_true.mpr ⟨f, h, by simp⟩
    have hdisj : List.Disjoint olds news :=
      List.disjoint_take_drop hnd_sorted (Nat.le_refl k)
    have hkeep_olds : ∀ o ∈ olds, keep o = false := by
      intro o ho
      have hoW : o ∈ W := hjs_sub o (hperm.mem_iff.mp (List.mem_of_mem_take ho))
      have := (keyA o hoW).mpr ho
      simp [hkeep_def, this]
    have hkeep_news : ∀ n ∈ news, keep n = true := by
      intro n hn
      have hnW : n ∈ W := hjs_sub n (hperm.mem_iff.mp (List.mem_of_mem_drop hn))
      cases h : (olds.any fun o => o.name == n.name) with
      | false => simp [hkeep_def, h]
      | true => exact absurd ((keyA n hnW).mp h) fun hmem => hdisj hmem hn
    have hkept_eq : jsonFiles (pruneSessions W) = js.filter keep := by
      rw [hpr, hjs_def]
      show (W.filter keep).filter (fun f => isSuf jsonSuffix f.name) =
        (W.filter (fun f => isSuf jsonSuffix f.name)).filter keep
      rw [List.filter_filter, List.filter_filter]
      apply List.filter_congr
      intro f _
      exact Bool.and_comm _ _
    have hperm_news : List.Perm (js.filter keep) news := by
      have h1 : List.Perm (js.filter keep) (sorted.filter keep) :=
        (hperm.filter keep).symm
      have h2 : sorted.filter keep = news := by
        conv_lhs => rw [← List.take_append_drop k sorted]
        rw [List.filter_append, ← holds_def, ← hnews_def,
          List.filter_eq_nil_iff.mpr (by intro o ho; simp [hkeep_olds o ho]),
          List.filter_eq_self.mpr hkeep_news, List.nil_append]
      rw [← h2]
      exact h1
    have hsorted_pw : List.Pairwise mtimeLe (olds ++ news) := by
      have := List.sorted_insertionSort mtimeLe js
      rw [← hsorted_def] at this
      rw [List.take_append_drop k sorted]
      exact this
    refine ⟨fun hle => absurd hcase (by omega), fun _ => ?_, fun f hf hfnot => ?_⟩
    · rw [hkept_eq, hperm_news.length_eq, hnews_def, List.length_drop]
      omega
    · rw [hpr] at hfnot
      have hkeep_false : ¬ keep f = true := fun hk =>
        hfnot (List.mem_filter.mpr ⟨hf, hk⟩)
      have hany : (olds.any fun o => o.name == f.name) = true := by
        revert hkeep_false
        simp only [hkeep_def, Bool.not_eq_true']
        cases olds.any fun o => o.name == f.name <;> simp
      have hfolds : f ∈ olds := (keyA f hf).mp hany
      have hfjs : f ∈ js := hperm.mem_iff.mp (List.mem_of_mem_take hfolds)
      refine ⟨hjs_json f hfjs, fun g hg => ?_⟩
      rw [hkept_eq] at hg
      have hgnews : g ∈ news := hperm_news.mem_iff.mp hg
      exact (List.pairwise_append.mp hsorted_pw).2.2 f hfolds g hgnews
  · have hpr : pruneSessions W = W := by
      simp only [pruneSessions, hjs]
      rw [if_neg hcase]
    exact ⟨fun _ => hpr, fun hgt => absurd (by omega : MAX_HISTORY_SESSIONS < sorted.length) hcase,
      fun f hf hfnot => absurd (show f ∈ pruneSessions W by rw [hpr]; exact hf) hfnot⟩

/-- **C4.** After every call to `save_session` completes, at most
`MAX_HISTORY_SESSIONS` (50) session `.json` files remain in the history
directory, and the files removed by the pruning step are exactly the oldest
ones by modification time: nothing is removed when the written directory
holds at most 50 `.json` files, otherwise exactly 50 remain and every
removed file is a `.json` file whose mtime is at most that of every kept
`.json` file. -/
theorem c4_retention_prune (fs : List HFile) (s : ChatSession)
    (name : Option (List Char)) (ts : List Char)
    (hnd : (fs.map HFile.name).Nodup) :
    (jsonFiles (save_session fs s name ts)).length ≤ MAX_HISTORY_SESSIONS ∧
      ((jsonFiles (writtenDir fs s name ts)).length ≤ MAX_HISTORY_SESSIONS →
        save_session fs s name ts = writtenDir fs s name ts) ∧
      (MAX_HISTORY_SESSIONS < (jsonFiles (writtenDir fs s name ts)).length →
        (jsonFiles (save_session fs s name ts)).length = MAX_HISTORY_SESSIONS) ∧
      (∀ f ∈ writtenDir fs s name ts, f ∉ save_session fs s name ts →
        isSuf jsonSuffix f.name = true ∧
          ∀ g ∈ jsonFiles (save_session fs s name ts), f.mtime ≤ g.mtime) := by
  have hndW : ((writtenDir fs s name ts).map HFile.name).Nodup := by
    unfold writtenDir
    rw [List.map_append]
    apply List.Nodup.append
    · exact hnd.sublist ((List.filter_sublist fs).map HFile.name)
    · simp
    · intro x hx hx'
      simp only [List.map_cons, List.map_nil, List.mem_singleton] at hx'
      obtain ⟨f, hf, rfl⟩ := List.mem_map.mp hx
      have hne := (List.mem_filter.mp hf).2
      simp only [decide_eq_true_eq] at hne
      exact hne (by simpa using hx')
  have heq : save_session fs s name ts = pruneSessions (writtenDir fs s name ts) := rfl
  obtain ⟨h1, h2, h3⟩ := pruneSessions_spec (writtenDir fs s name ts) hndW
  refine ⟨?_, fun hle => heq.trans (h1 hle), fun hgt => by rw [heq]; exact h2 hgt,
    fun f hf hfn => ?_⟩
  · by_cases hc : MAX_HISTORY_SESSIONS < (jsonFiles (writtenDir fs s name ts)).length
    · rw [heq, h2 hc]
    · rw [heq, h1 (by omega)]
      omega
  · rw [heq] at hfn ⊢
    exact h3 f hf hfn

/-- Closed instance of C4: saving into an empty history directory leaves at
most 50 session files. -/
theorem c4_retention_prune_witness :
    (jsonFiles (save_session [] ⟨"m".toList, []⟩ (some "a".toList) "t".toList)).length ≤
      MAX_HISTORY_SESSIONS :=
  (c4_retention_prune [] ⟨"m".toList, []⟩ (some "a".toList) "t".toList (by simp)).1

theorem mem_mtime_le_maxMtime : ∀ {fs : List HFile} {f : HFile}, f ∈ fs →
    f.mtime ≤ maxMtime fs := by
  intro fs
  induction fs with
  | nil => intro f h; cases h
  | cons g gs ih =>
    intro f h
    rcases List.mem_cons.mp h with rfl | h'
    · exact Nat.le_max_left _ _
    · exact Nat.le_trans (ih h') (Nat.le_max_right _ _)

/-- The file just written by `save_session` has a strictly newer
modification time and a name distinct from all other files, so the pruning
never deletes it and an exact-name lookup afterwards finds it. -/
theorem pruneSessions_find_newest (fp : List HFile) (nf : HFile)
    (hfp_old : ∀ f ∈ fp, f.mtime < nf.mtime)
    (hfp_name : ∀ f ∈ fp, f.name ≠ nf.name) :
    (pruneSessions (fp ++ [nf])).find? (fun f => f.name == nf.name) = some nf := by
  have hfind_fp : ∀ (V : List HFile), (∀ f ∈ V, f ∈ fp) →
      V.find? (fun f => f.name == nf.name) = none := by
    intro V hV
    rw [List.find?_eq_none]
    intro f hf
    simp [hfp_name f (hV f hf)]
  set W := fp ++ [nf] with hW_def
  set js := W.filter (fun f => isSuf jsonSuffix f.name) with hjs_def
  set sorted := List.insertionSort mtimeLe js with hsorted_def
  have hjs_W : ∀ f ∈ js, f ∈ W := fun f hf => (List.mem_filter.mp hf).1
  have hperm : List.Perm sorted js := List.perm_insertionSort _ _
  have hnf_not_fp : nf ∉ fp := fun h => hfp_name nf h rfl
  by_cases hc : MAX_HISTORY_SESSIONS < sorted.length
  · set k := sorted.length - MAX_HISTORY_SESSIONS with hk_def
    set olds := sorted.take k with holds_def
    set news := sorted.drop k with hnews_def
    have hpr : pruneSessions W =
        W.filter (fun f => !(olds.any fun o => o.name == f.name)) := by
      show (if MAX_HISTORY_SESSIONS < sorted.length then
          W.filter (fun f => !((sorted.take (sorted.length - MAX_HISTORY_SESSIONS)).any
            fun o => o.name == f.name))
        else W) = _
      rw [if_pos hc]
    have hcount : List.count nf W = 1 := by
      rw [hW_def, List.count_append, List.count_eq_zero.mpr hnf_not_fp]
      simp
    have holds_mem_W : ∀ o ∈ olds, o ∈ W := fun o ho =>
      hjs_W o (hperm.mem_iff.mp (List.mem_of_mem_take ho))
    have hnews_mem_W : ∀ g ∈ news, g ∈ W := fun g hg =>
      hjs_W g (hperm.mem_iff.mp (List.mem_of_mem_drop hg))
    have hpw : List.Pairwise mtimeLe (olds ++ news) := by
      have hs := List.sorted_insertionSort mtimeLe js
      rw [← hsorted_def] at hs
      rw [holds_def, hnews_def, List.take_append_drop]
      exact hs
    have hnf_notin_olds : nf ∉ olds := by
      intro hmem
      have hlen_news : news.length = MAX_HISTORY_SESSIONS := by
        rw [hnews_def, List.length_drop]
        omega
      have hnews_ne : news ≠ [] := by
        intro h
        rw [h] at hlen_news
        simp [MAX_HISTORY_SESSIONS] at hlen_news
      obtain ⟨g, hg⟩ := List.exists_mem_of_ne_nil news hnews_ne
      have hle : nf.mtime ≤ g.mtime := (List.pairwise_append.mp hpw).2.2 nf hmem g hg
      rcases List.mem_append.mp (hnews_mem_W g hg) with hgf | hgn
      · have := hfp_old g hgf
        omega
      · have hgeq : g = nf := by simpa using hgn
        subst hgeq
        have h1 : 1 ≤ List.count g olds := List.one_le_count_iff.mpr hmem
        have h2 : 1 ≤ List.count g news := List.one_le_count_iff.mpr hg
        have h3 : List.count g sorted = List.count g js := hperm.count_eq g
        have h4 : List.count g js ≤ List.count g W :=
          (List.filter_sublist W).count_le g
        have h5 : List.count g sorted =
            List.count g olds + List.count g news := by
          conv_lhs => rw [← List.take_append_drop k sorted]
          rw [List.count_append]
        omega
    have hkeep_new : (!(olds.any fun o => o.name == nf.name)) = true := by
      cases hany : (olds.any fun o => o.name == nf.name) with
      | false => rfl
      | true =>
        obtain ⟨o, ho, hoeq⟩ := List.any_eq_true.mp hany
        rcases List.mem_append.mp (holds_mem_W o ho) with hof | hon
        · exact absurd (by simpa [beq_iff_eq] using hoeq) (hfp_name o hof)
        · have : o = nf := by simpa using hon
          subst this
          exact absurd ho hnf_notin_olds
    rw [hpr, hW_def, List.filter_append, List.find?_append,
      hfind_fp _ (fun f hf => (List.mem_filter.mp hf).1)]
    simp [hkeep_new]
  · have hpr : pruneSessions W = W := by
      show (if MAX_HISTORY_SESSIONS < sorted.length then
          W.filter (fun f => !((sorted.take (sorted.length - MAX_HISTORY_SESSIONS)).any
            fun o => o.name == f.name))
        else W) = _
      rw [if_neg hc]
    rw [hpr, hW_def, List.find?_append, hfind_fp fp (fun f hf => hf)]
    simp

/-- **C5 (amended).** For every directory state, session, and nonempty name
made only of characters `a-zA-Z0-9_-`, saving the session under that name
with `save_session` and then loading it with `load_session` yields a
session whose model and messages equal those of the saved session. -/
theorem c5_roundtrip (fs : List HFile) (s : ChatSession) (name ts : List Char)
    (hname : name ≠ []) (hallowed : ∀ c ∈ name, allowedChar c = true) :
    load_session (save_session fs s (some name) ts) name =
      some ⟨s.model, s.messages⟩ := by
  have hfname : sessionFilename (some name) ts = name ++ jsonSuffix := by
    simp [sessionFilename, sessionBase, hname, sanitizeName,
      List.filter_eq_self.mpr hallowed]
  have hsave : save_session fs s (some name) ts =
      pruneSessions ((fs.filter fun f => f.name ≠ sessionFilename (some name) ts) ++
        [⟨sessionFilename (some name) ts, maxMtime fs + 1, s.model, s.messages⟩]) := rfl
  have hfind := pruneSessions_find_newest
      (fs.filter fun f => f.name ≠ sessionFilename (some name) ts)
      ⟨sessionFilename (some name) ts, maxMtime fs + 1, s.model, s.messages⟩
      (fun f hf => by
        show f.mtime < maxMtime fs + 1
        have := mem_mtime_le_maxMtime (List.mem_filter.mp hf).1
        omega)
      (fun f hf => by
        show f.name ≠ sessionFilename (some name) ts
        have := (List.mem_filter.mp hf).2
        simpa using this)
  have hfind' : (pruneSessions
        ((fs.filter fun f => f.name ≠ sessionFilename (some name) ts) ++
          [⟨sessionFilename (some name) ts, maxMtime fs + 1, s.model, s.messages⟩])).find?
        (fun f => f.name == sessionFilename (some name) ts) =
      some ⟨sessionFilename (some name) ts, maxMtime fs + 1, s.model, s.messages⟩ := hfind
  rw [hsave]
  simp only [load_session, ← hfname, hfind']

/-- Closed instance of the amended C5: saving under `"a"` and loading
`"a"` returns the saved model and messages. -/
theorem c5_roundtrip_witness :
    load_session (save_session [] ⟨"m".toList, [⟨"user".toList, "q".toList⟩]⟩
        (some "a".toList) "t".toList) "a".toList =
      some ⟨"m".toList, [⟨"user".toList, "q".toList⟩]⟩ :=
  c5_roundtrip [] ⟨"m".toList, [⟨"user".toList, "q".toList⟩]⟩ "a".toList "t".toList
    (by decide) (by decide)

/-!
### Glob-matching lemmas for `load_session`'s fallback
-/

theorem mem_allSuffixes {s t : List Char} : t ∈ allSuffixes s ↔ ∃ i, t = s.drop i := by
  induction s with
  | nil =>
    simp only [allSuffixes, List.mem_singleton]
    constructor
    · rintro rfl; exact ⟨0, rfl⟩
    · rintro ⟨i, rfl⟩; simp
  | cons c cs ih =>
    simp only [allSuffixes, List.mem_cons, ih]
    constructor
    · rintro (rfl | ⟨i, rfl⟩)
      · exact ⟨0, rfl⟩
      · exact ⟨i + 1, rfl⟩
    · rintro ⟨i, rfl⟩
      cases i with
      | zero => exact Or.inl rfl
      | succ j => exact Or.inr ⟨j, rfl⟩

theorem globMatch_star (ps s : List Char) :
    globMatch ('*' :: ps) s = true ↔ ∃ i, globMatch ps (s.drop i) = true := by
  show (if ('*' : Char) = '*' then (allSuffixes s).any fun t => globMatch ps t
      else _) = true ↔ _
  rw [if_pos rfl, List.any_eq_true]
  constructor
  · rintro ⟨t, ht, hglob⟩
    obtain ⟨i, rfl⟩ := mem_allSuffixes.mp ht
    exact ⟨i, hglob⟩
  · rintro ⟨i, hglob⟩
    exact ⟨s.drop i, mem_allSuffixes.mpr ⟨i, rfl⟩, hglob⟩

theorem globMatch_lit :
    ∀ (lit : List Char), (∀ c ∈ lit, c ≠ '*' ∧ c ≠ '?') → ∀ (ps s : List Char),
      (globMatch (lit ++ ps) s = true ↔
        ∃ s', s = lit ++ s' ∧ globMatch ps s' = true) := by
  intro lit
  induction lit with
  | nil =>
    intro _ ps s
    simp
  | cons c lit' ih =>
    intro hmeta ps s
    have hc := hmeta c (List.mem_cons_self c lit')
    have hlit' : ∀ d ∈ lit', d ≠ '*' ∧ d ≠ '?' :=
      fun d hd => hmeta d (List.mem_cons_of_mem c hd)
    rw [List.cons_append]
    show (if c = '*' then _ else
        match s with
        | [] => false
        | d :: ds => (c == '?' || c == d) && globMatch (lit' ++ ps) ds) = true ↔ _
    rw [if_neg hc.1]
    cases s with
    | nil =>
      simp
    | cons d ds =>
      have hq : (c == '?') = false := by
        simp [hc.2]
      simp only [hq, Bool.false_or, Bool.and_eq_true, beq_iff_eq, ih hlit' ps ds]
      constructor
      · rintro ⟨rfl, s', rfl, hg⟩
        exact ⟨s', rfl, hg⟩
      · rintro ⟨s', heq, hg⟩
        rw [List.cons_append] at heq
        injection heq with h1 h2
        exact ⟨h1.symm, s', h2, hg⟩

theorem globMatch_lit_end (lit : List Char) (hmeta : ∀ c ∈ lit, c ≠ '*' ∧ c ≠ '?')
    (s : List Char) : globMatch lit s = true ↔ s = lit := by
  have h := globMatch_lit lit hmeta [] s
  rw [List.append_nil] at h
  rw [h]
  constructor
  · rintro ⟨s', rfl, hg⟩
    have : s' = [] := by
      cases s' with
      | nil => rfl
      | cons a as => exact absurd hg (by simp [globMatch])
    rw [this, List.append_nil]
  · rintro rfl
    exact ⟨[], by simp, rfl⟩

theorem stem_append (u n v : List Char) :
    stemOf (u ++ (n ++ (v ++ jsonSuffix))) = u ++ (n ++ v) := by
  rw [stemOf]
  have hlen : (u ++ (n ++ (v ++ jsonSuffix))).length - jsonSuffix.length =
      (u ++ (n ++ v)).length := by
    simp only [List.length_append]
    omega
  rw [hlen]
  have hgr : u ++ (n ++ (v ++ jsonSuffix)) = (u ++ (n ++ v)) ++ jsonSuffix := by
    simp [List.append_assoc]
  rw [hgr, List.take_left]

theorem stem_append_json (w : List Char) : stemOf (w ++ jsonSuffix) = w := by
  rw [stemOf]
  have hlen : (w ++ jsonSuffix).length - jsonSuffix.length = w.length := by
    simp [List.length_append]
  rw [hlen, List.take_left]

/-- Characterisation of `load_session`'s glob pattern `f"*{name}*.json"`
for metacharacter-free names: a filename matches iff it ends in `.json`
and its stem contains the name as a substring. -/
theorem globMatch_session_pattern (name fname : List Char)
    (hmeta : ∀ c ∈ name, c ≠ '*' ∧ c ≠ '?') :
    globMatch ('*' :: (name ++ '*' :: jsonSuffix)) fname = true ↔
      (isSuf jsonSuffix fname = true ∧ containsSub name (stemOf fname) = true) := by
  have hjmeta : ∀ c ∈ jsonSuffix, c ≠ '*' ∧ c ≠ '?' := by decide
  constructor
  · intro h
    obtain ⟨i, hi⟩ := (globMatch_star _ _).mp h
    obtain ⟨s', hs'eq, hs'⟩ := (globMatch_lit name hmeta _ _).mp hi
    obtain ⟨j, hj⟩ := (globMatch_star _ _).mp hs'
    have hjs : s'.drop j = jsonSuffix := (globMatch_lit_end jsonSuffix hjmeta _).mp hj
    have hfe : fname = fname.take i ++ (name ++ (s'.take j ++ jsonSuffix)) := by
      conv_lhs => rw [← List.take_append_drop i fname]
      rw [hs'eq]
      congr 1
      congr 1
      conv_lhs => rw [← List.take_append_drop j s']
      rw [hjs]
    constructor
    · rw [isSuf_iff]
      refine ⟨fname.take i ++ (name ++ s'.take j), ?_⟩
      conv_rhs => rw [hfe]
      simp [List.append_assoc]
    · rw [containsSub_iff]
      have hstem : stemOf fname = fname.take i ++ (name ++ s'.take j) := by
        conv_lhs => rw [hfe]
        exact stem_append _ _ _
      rw [hstem]
      exact ⟨fname.take i, s'.take j, by simp [List.append_assoc]⟩
  · rintro ⟨hsuf, hsub⟩
    rw [isSuf_iff] at hsuf
    obtain ⟨w, hw⟩ := hsuf
    rw [containsSub_iff] at hsub
    have hstem : stemOf fname = w := by
      rw [← hw]
      exact stem_append_json w
    rw [hstem] at hsub
    obtain ⟨a, b, hab⟩ := hsub
    have hfname : fname = a ++ (name ++ (b ++ jsonSuffix)) := by
      rw [← hw, ← hab]
      simp [List.append_assoc]
    apply (globMatch_star _ _).mpr
    refine ⟨a.length, ?_⟩
    rw [hfname, List.drop_left]
    apply (globMatch_lit name hmeta _ _).mpr
    refine ⟨b ++ jsonSuffix, rfl, ?_⟩
    apply (globMatch_star _ _).mpr
    refine ⟨b.length, ?_⟩
    rw [List.drop_left]
    exact (globMatch_lit_end jsonSuffix hjmeta _).mpr rfl

/-- **C10 (amended).** When `load_session` is called with a name free of
glob metacharacters (`*`, `?`, `[`) for which no exact file
`"<name>.json"` exists, it falls back to the `.json` files whose stem
contains the given name as a substring: it returns `None` exactly when no
file matches, and otherwise returns the stored session of a matching file
that is most recently modified among all matches.  (Metacharacters in the
name act as wildcards instead — see the counterexample.) -/
theorem c10_substring_fallback (fs : List HFile) (name : List Char)
    (hmeta : ∀ c ∈ name, c ≠ '*' ∧ c ≠ '?' ∧ c ≠ '[')
    (hnoexact : ∀ f ∈ fs, f.name ≠ name ++ jsonSuffix) :
    (load_session fs name = none ↔
      ∀ f ∈ fs, ¬(isSuf jsonSuffix f.name = true ∧
        containsSub name (stemOf f.name) = true)) ∧
    (∀ d, load_session fs name = some d →
      ∃ f ∈ fs, isSuf jsonSuffix f.name = true ∧
        containsSub name (stemOf f.name) = true ∧ d = ⟨f.model, f.messages⟩ ∧
        ∀ g ∈ fs, isSuf jsonSuffix g.name = true →
          containsSub name (stemOf g.name) = true → g.mtime ≤ f.mtime) := by
  have hfind : fs.find? (fun f => f.name == name ++ jsonSuffix) = none := by
    rw [List.find?_eq_none]
    intro f hf
    simp [hnoexact f hf]
  have hmeta' : ∀ c ∈ name, c ≠ '*' ∧ c ≠ '?' :=
    fun c hc => ⟨(hmeta c hc).1, (hmeta c hc).2.1⟩
  have hglob : ∀ f : HFile,
      globMatch ('*' :: (name ++ '*' :: jsonSuffix)) f.name = true ↔
        (isSuf jsonSuffix f.name = true ∧ containsSub name (stemOf f.name) = true) :=
    fun f => globMatch_session_pattern name f.name hmeta'
  have hload : load_session fs name =
      (match List.insertionSort mtimeGe
          (fs.filter fun f => globMatch ('*' :: (name ++ '*' :: jsonSuffix)) f.name) with
        | f :: _ => some (⟨f.model, f.messages⟩ : ChatSession)
        | [] => none) := by
    show (match fs.find? (fun f => f.name == name ++ jsonSuffix) with
        | some f => some (⟨f.model, f.messages⟩ : ChatSession)
        | none =>
          match List.insertionSort mtimeGe
              (fs.filter fun f => globMatch ('*' :: (name ++ '*' :: jsonSuffix)) f.name) with
            | f :: _ => some (⟨f.model, f.messages⟩ : ChatSession)
            | [] => none) = _
    rw [hfind]
  set sm := List.insertionSort mtimeGe
      (fs.filter fun f => globMatch ('*' :: (name ++ '*' :: jsonSuffix)) f.name)
    with hm_def
  have hperm : List.Perm sm
      (fs.filter fun f => globMatch ('*' :: (name ++ '*' :: jsonSuffix)) f.name) :=
    List.perm_insertionSort _ _
  have hsorted : List.Sorted mtimeGe sm := List.sorted_insertionSort _ _
  constructor
  · constructor
    · intro h f hf hprops
      have hfm : f ∈ sm :=
        hperm.mem_iff.mpr (List.mem_filter.mpr ⟨hf, (hglob f).mpr hprops⟩)
      cases hmcase : sm with
      | nil => rw [hmcase] at hfm; cases hfm
      | cons a as =>
        rw [hload, hmcase] at h
        exact Option.noConfusion h
    · intro hall
      cases hmcase : sm with
      | nil => rw [hload, hmcase]
      | cons a as =>
        exfalso
        have ha : a ∈ sm := by
          rw [hmcase]
          exact List.mem_cons_self a as
        have haf := List.mem_filter.mp (hperm.mem_iff.mp ha)
        exact hall a haf.1 ((hglob a).mp haf.2)
  · intro d hd
    cases hmcase : sm with
    | nil =>
      rw [hload, hmcase] at hd
      exact absurd hd (by simp)
    | cons a as =>
      rw [hload, hmcase] at hd
      have hd' : d = ⟨a.model, a.messages⟩ := by
        have : some (⟨a.model, a.messages⟩ : ChatSession) = some d := hd
        exact (Option.some.inj this).symm
      have ha : a ∈ sm := by
        rw [hmcase]
        exact List.mem_cons_self a as
      have haf := List.mem_filter.mp (hperm.mem_iff.mp ha)
      refine ⟨a, haf.1, ((hglob a).mp haf.2).1, ((hglob a).mp haf.2).2, hd', ?_⟩
      intro g hg hg1 hg2
      have hgm : g ∈ sm :=
        hperm.mem_iff.mpr (List.mem_filter.mpr ⟨hg, (hglob g).mpr ⟨hg1, hg2⟩⟩)
      rw [hmcase] at hgm
      rcases List.mem_cons.mp hgm with rfl | hgas
      · exact Nat.le_refl _
      · exact List.rel_of_sorted_cons (hmcase ▸ hsorted) g hgas

/-- Closed instance of the amended C10: loading `"a"` with history files
`"xay.json"` (mtime 3) and `"za.json"` (mtime 7) and no exact `"a.json"`
returns the newest substring match, `"za.json"`. -/
theorem c10_substring_fallback_witness :
    ∃ f ∈ ([⟨"xay.json".toList, 3, "m1".toList, []⟩,
        ⟨"za.json".toList, 7, "m2".toList, []⟩] : List HFile),
      isSuf jsonSuffix f.name = true ∧
        containsSub "a".toList (stemOf f.name) = true ∧
        (⟨"m2".toList, []⟩ : ChatSession) = ⟨f.model, f.messages⟩ ∧
        ∀ g ∈ ([⟨"xay.json".toList, 3, "m1".toList, []⟩,
            ⟨"za.json".toList, 7, "m2".toList, []⟩] : List HFile),
          isSuf jsonSuffix g.name = true →
            containsSub "a".toList (stemOf g.name) = true → g.mtime ≤ f.mtime :=
  (c10_substring_fallback
      [⟨"xay.json".toList, 3, "m1".toList, []⟩, ⟨"za.json".toList, 7, "m2".toList, []⟩]
      "a".toList (by decide) (by decide)).2 ⟨"m2".toList, []⟩ (by decide)
